import Mathlib

/-!
Verification development for the prostojs/cache in-memory cache
(ProstoCache, src/cache.ts + src/bin-serach.ts).

The TypeScript classes are shallowly embedded as pure functions over an
explicit state record. JS numbers used as timestamps and TTL values are
modelled as Int; the JS truthiness test `if (x)` on a number-or-null field
is modelled by the predicate truthy (null and 0 are falsy). JS string keys
are only ever compared for equality, so the key type is an arbitrary type
K with decidable equality; the value type is an arbitrary type A.
JS Map objects are modelled as association lists: Map.set keeps the
original insertion position of an existing key, which aSet mirrors by
replacing in place. The setTimeout timer is modelled by the field
nextTimeout holding the armed target instant (none = idle / cancelled),
and the onExpire callback by appending to an event log.
-/

namespace ProstoCache

/-- The ttlUnits option: 'ms' | 's' | 'm' | 'h'. -/
inductive TtlUnit where
  | ms
  | s
  | m
  | h
deriving DecidableEq, Repr

/-- ttlUnitsChart from src/cache.ts. -/
def unitMs : TtlUnit → Int
  | .ms => 1
  | .s => 1000
  | .m => 60000
  | .h => 60000 * 60

/-- JS Math.round (x / m) for integer x and positive integer m:
round half toward positive infinity. -/
def jsRound (x m : Int) : Int := Int.fdiv (2 * x + m) (2 * m)

/-- JS truthiness of a `number | null` value: null and 0 are falsy. -/
def truthy : Option Int → Bool
  | none => false
  | some t => decide (t ≠ 0)

section AList

variable {κ : Type} {β : Type} [DecidableEq κ]

/-- Map.get: lookup in an association list. -/
def aLookup (k : κ) (l : List (κ × β)) : Option β :=
  (l.find? (fun p => decide (p.1 = k))).map Prod.snd

/-- Map.set: replace the binding in place when the key is present
(a JS Map keeps the original insertion position), append otherwise. -/
def aSet (k : κ) (v : β) (l : List (κ × β)) : List (κ × β) :=
  if (aLookup k l).isSome then
    l.map (fun p => if p.1 = k then (k, v) else p)
  else
    l ++ [(k, v)]

/-- Map.delete: remove the binding for a key. -/
def aErase (k : κ) (l : List (κ × β)) : List (κ × β) :=
  l.filter (fun p => decide (p.1 ≠ k))

end AList

/-- Array.prototype.splice (i, 0, x): insert x at index i. -/
def insertAt (l : List Int) (i : Nat) (x : Int) : List Int :=
  l.take i ++ x :: l.drop i

/-- The while loop of binarySearch (src/bin-serach.ts), with the ceiling
midpoint `mid = Math.ceil((start + end) / 2)`. The interval end - start
shrinks by at least one per iteration, so fuel = a.length + 1 (supplied by
binarySearch) is never exhausted; the fuel-0 branch returns the same
not-found result shape as the loop exit. -/
def bsGo (a : List Int) (n : Int) : Nat → Int → Int → Int → Bool × Int
  | 0, _, _, mid => (false, if 0 < mid then mid else 0)
  | fuel + 1, start, e, mid =>
    if start ≤ e then
      let m := (start + e + 1) / 2
      let v := a.getD m.toNat 0
      if v = n then (true, m)
      else if n < v then bsGo a n fuel start (m - 1) (m - 1)
      else bsGo a n fuel (m + 1) e (m + 1)
    else (false, if 0 < mid then mid else 0)

/-- binarySearch from src/bin-serach.ts: returns (found, index); when not
found, index is the final value of mid clamped to be nonnegative. -/
def binarySearch (a : List Int) (n : Int) : Bool × Int :=
  bsGo a n (a.length + 1) 0 ((a.length : Int) - 1) 0

/-- TProstoCacheEntry: a stored value plus its absolute expiry instant
(none models the JS null). -/
structure CacheEntry (A : Type) where
  value : A
  expires : Option Int
deriving Repr

/-- The mutable state of a ProstoCache instance, together with the
immutable options (limit, ttl, ttlUnits, onExpire-configured flag) and an
event log recording every onExpire invocation (key, value argument). -/
structure CacheState (K A : Type) where
  data : List (K × CacheEntry A)
  limits : List K
  expireOrder : List Int
  expireSeries : List (Int × List K)
  limit : Int
  ttl : Option Int
  ttlUnits : Option TtlUnit
  onExpire : Bool
  nextTimeout : Option Int
  events : List (K × Option A)
deriving Repr

variable {K A : Type} [DecidableEq K]

/-- A fresh cache whose constructor received the given options. -/
def initState (limit : Int) (ttl : Option Int) (ttlUnits : Option TtlUnit)
    (onExpire : Bool) : CacheState K A :=
  { data := [], limits := [], expireOrder := [], expireSeries := [],
    limit := limit, ttl := ttl, ttlUnits := ttlUnits, onExpire := onExpire,
    nextTimeout := none, events := [] }

/-- The ttl selected by calcExpires:
`typeof _ttl === 'number' ? _ttl : this.options.ttl`. -/
def selectedTtl (s : CacheState K A) (_ttl : Option Int) : Option Int :=
  match _ttl with
  | some t => some t
  | none => s.ttl

/-- The units selected by calcExpires:
`_ttlUnits ?? this.options.ttlUnits ?? 'ms'`. -/
def selectedUnits (s : CacheState K A) (_u : Option TtlUnit) : TtlUnit :=
  _u.getD (s.ttlUnits.getD TtlUnit.ms)

/-- calcExpires: `ttl ? (Math.round(Date.now() / m) + ttl) * m : null`.
The guard is JS truthiness of ttl (0 and undefined give null). -/
def calcExpires (s : CacheState K A) (_ttl : Option Int) (_u : Option TtlUnit)
    (now : Int) : Option Int :=
  let m := unitMs (selectedUnits s _u)
  match selectedTtl s _ttl with
  | none => none
  | some t => if t = 0 then none else some ((jsRound now m + t) * m)

/-- One iteration of the for-loop in the del closure of prepareTimeout:
invoke onExpire (when configured) with the current stored value, then
delete the key from data. -/
def expireStep (acc : CacheState K A) (key : K) : CacheState K A :=
  { acc with
    events :=
      if acc.onExpire then
        acc.events ++ [(key, (aLookup key acc.data).map (fun en => en.value))]
      else acc.events
    data := aErase key acc.data }

/-- The body of the del closure in prepareTimeout: expire every key of the
series bucket at the given instant, drop the bucket, and drop the head of
expireOrder (`this.expireOrder.slice(1)`). -/
def delBatch (time : Int) (s : CacheState K A) : CacheState K A :=
  let series := (aLookup time s.expireSeries).getD []
  let s1 := series.foldl expireStep s
  { s1 with
    expireSeries := aErase time s1.expireSeries
    expireOrder := s1.expireOrder.drop 1 }

/-- prepareTimeout, fuelled. It first cancels the pending timer
(clearTimeout). If the head instant exists and is nonzero (`if (time)`),
it either arms the timer when `delta = time - Date.now() > 0`, or runs the
del closure synchronously; del itself ends with a recursive
prepareTimeout, and the else branch calls prepareTimeout once more after
del returns. Each recursion drops the head of expireOrder, so the fuel
expireOrder.length + 1 supplied by prepareTimeout is never exhausted. -/
def prepareTimeoutF : Nat → Int → CacheState K A → CacheState K A
  | 0, _, s => s
  | fuel + 1, now, s =>
    match s.expireOrder with
    | [] => { s with nextTimeout := none }
    | time :: _ =>
      if time = 0 then { s with nextTimeout := none }
      else if now < time then { s with nextTimeout := some time }
      else
        let s2 := delBatch time { s with nextTimeout := none }
        prepareTimeoutF fuel now (prepareTimeoutF fuel now s2)

/-- prepareTimeout from src/cache.ts. -/
def prepareTimeout (now : Int) (s : CacheState K A) : CacheState K A :=
  prepareTimeoutF (s.expireOrder.length + 1) now s

/-- delExpireSeries: remove the key from the bucket at the given instant;
when the bucket becomes empty, drop it, binary-search the instant in
expireOrder, splice it out when found, and re-arm the scheduler when it
was the head (index 0). -/
def delExpireSeries (key : K) (expires : Int) (now : Int)
    (s : CacheState K A) : CacheState K A :=
  match aLookup expires s.expireSeries with
  | none => s
  | some es =>
    let es2 := es.filter (fun k => decide (k ≠ key))
    let s1 := { s with expireSeries := aSet expires es2 s.expireSeries }
    if es2.length = 0 then
      let s2 := { s1 with expireSeries := aErase expires s1.expireSeries }
      let r := binarySearch s2.expireOrder expires
      if r.1 then
        let s3 := { s2 with expireOrder := s2.expireOrder.eraseIdx r.2.toNat }
        if r.2 = 0 then prepareTimeout now s3 else s3
      else s2
    else s1

/-- del: remove the entry; when it had a truthy expiry, clean up the
expiry bookkeeping. A missing key changes nothing. -/
def del (key : K) (now : Int) (s : CacheState K A) : CacheState K A :=
  match aLookup key s.data with
  | none => s
  | some entry =>
    let s1 := { s with data := aErase key s.data }
    if truthy entry.expires then
      delExpireSeries key (entry.expires.getD 0) now s1
    else s1

/-- pushLimit: rebuild the recency list with the key at the front,
keeping only other keys still present in data, cap it at limit, and del
every key that fell off the end. The guard is JS truthiness of limit.
(pushLimit is only ever invoked by set under `options.limit > 0`.) -/
def pushLimit (key : K) (now : Int) (s : CacheState K A) : CacheState K A :=
  if s.limit = 0 then s
  else
    let newObj :=
      key :: s.limits.filter
        (fun item => decide (item ≠ key) && (aLookup item s.data).isSome)
    let tail := newObj.drop s.limit.toNat
    let s1 := { s with limits := newObj.take s.limit.toNat }
    tail.foldl (fun acc item => del item now acc) s1

/-- pushExpires: binary-search the instant; insert it into expireOrder
when not found; append the key to the series bucket (creating it when
absent); re-arm the scheduler when the instant was newly inserted at the
head (`!found && index <= 0`). -/
def pushExpires (key : K) (time : Int) (now : Int) (s : CacheState K A) :
    CacheState K A :=
  let r := binarySearch s.expireOrder time
  let s1 :=
    if r.1 then s
    else { s with expireOrder := insertAt s.expireOrder r.2.toNat time }
  let es := (aLookup time s1.expireSeries).getD []
  let s2 := { s1 with expireSeries := aSet time (es ++ [key]) s1.expireSeries }
  if !r.1 && decide (r.2 ≤ 0) then prepareTimeout now s2 else s2

/-- set: no-op when limit is 0; compute the expiry; unregister the old
expiry only when both the new and the old expiry are truthy
(`if (expires && entry?.expires)`); upsert the entry; register the new
expiry when truthy; run pushLimit when limit > 0. -/
def set (key : K) (value : A) (_ttl : Option Int) (_u : Option TtlUnit)
    (now : Int) (s : CacheState K A) : CacheState K A :=
  if s.limit = 0 then s
  else
    let expires := calcExpires s _ttl _u now
    let oldExpires := (aLookup key s.data).bind (fun en => en.expires)
    let s1 :=
      if truthy expires && truthy oldExpires then
        delExpireSeries key (oldExpires.getD 0) now s
      else s
    let s2 := { s1 with data := aSet key ⟨value, expires⟩ s1.data }
    let s3 :=
      if truthy expires then pushExpires key (expires.getD 0) now s2 else s2
    if 0 < s.limit then pushLimit key now s3 else s3

/-- replaceExpireSeriesForEntry: unregister the old expiry, recompute a
new one, mutate the entry object in place (visible through data only while
the key is still present), and register the new expiry when truthy. -/
def replaceExpireSeriesForEntry (key : K) (entry : CacheEntry A)
    (_ttl : Option Int) (_u : Option TtlUnit) (now : Int)
    (s : CacheState K A) : CacheState K A :=
  let s1 := delExpireSeries key (entry.expires.getD 0) now s
  let e2 := calcExpires s1 _ttl _u now
  let s2 :=
    if (aLookup key s1.data).isSome then
      { s1 with data := aSet key ⟨entry.value, e2⟩ s1.data }
    else s1
  if truthy e2 then pushExpires key (e2.getD 0) now s2 else s2

/-- get: look the entry up; when extendTtl is requested and the entry has
a truthy expiry, replace its expiry registration; return the stored value
(captured from the entry object) together with the resulting state. -/
def get (key : K) (extendTtl : Bool) (_ttl : Option Int)
    (_u : Option TtlUnit) (now : Int) (s : CacheState K A) :
    Option A × CacheState K A :=
  match aLookup key s.data with
  | none => (none, s)
  | some entry =>
    if extendTtl && truthy entry.expires then
      (some entry.value, replaceExpireSeriesForEntry key entry _ttl _u now s)
    else (some entry.value, s)

/-- reset: clear every collection and cancel the pending timer. -/
def reset (s : CacheState K A) : CacheState K A :=
  { s with
    data := []
    limits := []
    expireOrder := []
    expireSeries := []
    nextTimeout := none }

/-- The armed setTimeout callback firing: it runs the del closure captured
with the armed instant, which ends in prepareTimeout. Nothing fires when
no timer is armed. -/
def fire (now : Int) (s : CacheState K A) : CacheState K A :=
  match s.nextTimeout with
  | none => s
  | some t => prepareTimeout now (delBatch t s)

/-- One public-interface event: any set / get / del / reset call with
arbitrary arguments at an arbitrary instant, or the armed timer firing. -/
inductive Step : CacheState K A → CacheState K A → Prop where
  | set (k : K) (v : A) (ttl : Option Int) (u : Option TtlUnit) (now : Int)
      (s : CacheState K A) : Step s (set k v ttl u now s)
  | get (k : K) (ext : Bool) (ttl : Option Int) (u : Option TtlUnit)
      (now : Int) (s : CacheState K A) : Step s (get k ext ttl u now s).2
  | del (k : K) (now : Int) (s : CacheState K A) : Step s (del k now s)
  | reset (s : CacheState K A) : Step s (reset s)
  | fire (now : Int) (s : CacheState K A) : Step s (fire now s)

/-- States reachable from a given initial state by public operations and
timer firings. -/
inductive Reachable (s0 : CacheState K A) : CacheState K A → Prop where
  | init : Reachable s0 s0
  | step {s t : CacheState K A} : Reachable s0 s → Step s t → Reachable s0 t

/-- The keys of the series bucket at an instant (empty when absent). -/
def seriesKeys (s : CacheState K A) (t : Int) : List K :=
  (aLookup t s.expireSeries).getD []

/-- Concatenation of the series buckets of a list of instants, in order. -/
def flatKeys (s : CacheState K A) : List Int → List K
  | [] => []
  | t :: ts => seriesKeys s t ++ flatKeys s ts

/-- The keys currently stored in data (the entry count of the store). -/
def dataKeys (s : CacheState K A) : List K := s.data.map Prod.fst

/-- The size/recency invariant maintained by the cache: stored keys are
pairwise distinct, the recency list is duplicate-free, and — when a
positive limit is configured — every stored key occurs in the recency
list, whose length is at most the limit. -/
def Inv (s : CacheState K A) : Prop :=
  (dataKeys s).Nodup ∧ s.limits.Nodup ∧
  (0 < s.limit →
    (∀ k ∈ dataKeys s, k ∈ s.limits) ∧ s.limits.length ≤ s.limit.toNat)

/-! ### Concrete executions used to settle individual claims.
Keys and values are natural numbers; the clock value passed to each call
plays the role of Date.now(). -/

/-- A fresh cache with default limit 1000, no default ttl, and an
onExpire callback configured: set key 0 with ttl 100 ms at t = 0, then
overwrite it at t = 0 with ttl 0 (which computes a null expiry). -/
def c1State : CacheState Nat Nat :=
  set 0 2 (some 0) none 0
    (set 0 1 (some 100) none 0 (initState 1000 none none true))

/-- Four set calls at t = 0 with ttls 1, 2, 10 and 5 ms on distinct keys
(cache with limit 1000, no default ttl). -/
def c3State : CacheState Nat Nat :=
  set 3 3 (some 5) none 0
    (set 2 2 (some 10) none 0
      (set 1 1 (some 2) none 0
        (set 0 0 (some 1) none 0 (initState 1000 none none false))))

/-- Churn on one key before its deadline: set key 0 with ttl 100 ms,
overwrite with ttl 0, set again with ttl 100 ms (all at t = 0, same
expiry instant 100), then the armed timer fires at t = 100. -/
def c6State : CacheState Nat Nat :=
  fire 100
    (set 0 3 (some 100) none 0
      (set 0 2 (some 0) none 0
        (set 0 1 (some 100) none 0 (initState 1000 none none true))))

/-- set key 0 with ttl 100 ms at t = 0, overwrite it with no ttl (cache
has no default ttl, so the computed expiry is null), then del it. -/
def c8State : CacheState Nat Nat :=
  del 0 0
    (set 0 2 none none 0
      (set 0 1 (some 100) none 0 (initState 1000 none none true)))

/-- A cache constructed with a default ttl of 7, used to exhibit the
entry-level ttl taking precedence over the cache-level default. -/
def c5State : CacheState Nat Nat := initState 1000 (some 7) none false

/-- A scheduler state with two armed instants 5 and 10 (keys 0 and 1),
used to witness the synchronous drain at now = 7. -/
def c7State : CacheState Nat Nat :=
  { data := [(0, ⟨7, some 5⟩), (1, ⟨8, some 10⟩)], limits := [1, 0],
    expireOrder := [5, 10], expireSeries := [(5, [0]), (10, [1])],
    limit := 1000, ttl := none, ttlUnits := none, onExpire := true,
    nextTimeout := some 5, events := [] }

/-! ### Helper lemmas -/

section AListLemmas

variable {κ β : Type} [DecidableEq κ]

theorem aLookup_cons (j : κ) (p : κ × β) (l : List (κ × β)) :
    aLookup j (p :: l) = if p.1 = j then some p.2 else aLookup j l := by
  by_cases h : p.1 = j <;> simp [aLookup, List.find?_cons, h]

theorem aErase_cons_self {k : κ} {p : κ × β} (h : p.1 = k) (l : List (κ × β)) :
    aErase k (p :: l) = aErase k l := by
  simp [aErase, List.filter_cons, h]

theorem aErase_cons_ne {k : κ} {p : κ × β} (h : ¬ p.1 = k) (l : List (κ × β)) :
    aErase k (p :: l) = p :: aErase k l := by
  simp [aErase, List.filter_cons, h]

theorem aLookup_aErase (j k : κ) (l : List (κ × β)) :
    aLookup j (aErase k l) = if j = k then none else aLookup j l := by
  induction l with
  | nil => simp [aErase, aLookup]
  | cons p l ih =>
    by_cases hk : p.1 = k
    · rw [aErase_cons_self hk, ih, aLookup_cons]
      by_cases hj : j = k
      · simp [hj]
      · have hpj : ¬ p.1 = j := by
          rw [hk]; exact fun e => hj e.symm
        simp [hj, hpj]
    · rw [aErase_cons_ne hk, aLookup_cons, aLookup_cons, ih]
      by_cases hj : p.1 = j
      · have hjk : ¬ j = k := fun e => hk (by rw [hj, e])
        simp [hj, hjk]
      · simp [hj]

end AListLemmas

theorem dropWhile_dropWhile {γ : Type} (p : γ → Bool) :
    ∀ l : List γ, (l.dropWhile p).dropWhile p = l.dropWhile p
  | [] => rfl
  | a :: l => by
    by_cases h : p a
    · rw [List.dropWhile_cons_of_pos h]
      exact dropWhile_dropWhile p l
    · rw [List.dropWhile_cons_of_neg h, List.dropWhile_cons_of_neg h]

theorem takeWhile_dropWhile {γ : Type} (p : γ → Bool) :
    ∀ l : List γ, (l.dropWhile p).takeWhile p = []
  | [] => rfl
  | a :: l => by
    by_cases h : p a
    · rw [List.dropWhile_cons_of_pos h]
      exact takeWhile_dropWhile p l
    · rw [List.dropWhile_cons_of_neg h, List.takeWhile_cons_of_neg h]

theorem foldl_expireStep_expireOrder :
    ∀ (L : List K) (s : CacheState K A),
      (L.foldl expireStep s).expireOrder = s.expireOrder
  | [], _ => rfl
  | k :: L, s => by
    rw [List.foldl_cons, foldl_expireStep_expireOrder L]
    rfl

theorem foldl_expireStep_expireSeries :
    ∀ (L : List K) (s : CacheState K A),
      (L.foldl expireStep s).expireSeries = s.expireSeries
  | [], _ => rfl
  | k :: L, s => by
    rw [List.foldl_cons, foldl_expireStep_expireSeries L]
    rfl

theorem foldl_expireStep_nextTimeout :
    ∀ (L : List K) (s : CacheState K A),
      (L.foldl expireStep s).nextTimeout = s.nextTimeout
  | [], _ => rfl
  | k :: L, s => by
    rw [List.foldl_cons, foldl_expireStep_nextTimeout L]
    rfl

theorem foldl_expireStep_limits :
    ∀ (L : List K) (s : CacheState K A),
      (L.foldl expireStep s).limits = s.limits
  | [], _ => rfl
  | k :: L, s => by
    rw [List.foldl_cons, foldl_expireStep_limits L]
    rfl

theorem foldl_expireStep_limit :
    ∀ (L : List K) (s : CacheState K A),
      (L.foldl expireStep s).limit = s.limit
  | [], _ => rfl
  | k :: L, s => by
    rw [List.foldl_cons, foldl_expireStep_limit L]
    rfl

theorem foldl_expireStep_onExpire :
    ∀ (L : List K) (s : CacheState K A),
      (L.foldl expireStep s).onExpire = s.onExpire
  | [], _ => rfl
  | k :: L, s => by
    rw [List.foldl_cons, foldl_expireStep_onExpire L]
    rfl

theorem foldl_expireStep_events_fst :
    ∀ (L : List K) (s : CacheState K A), s.onExpire = true →
      (L.foldl expireStep s).events.map Prod.fst = s.events.map Prod.fst ++ L
  | [], s, _ => by simp
  | k :: L, s, h => by
    rw [List.foldl_cons,
      foldl_expireStep_events_fst L (expireStep s k) (by simpa [expireStep])]
    simp [expireStep, h]

theorem delBatch_expireOrder (t : Int) (s : CacheState K A) :
    (delBatch t s).expireOrder = s.expireOrder.drop 1 := by
  simp [delBatch, foldl_expireStep_expireOrder]

theorem delBatch_expireSeries (t : Int) (s : CacheState K A) :
    (delBatch t s).expireSeries = aErase t s.expireSeries := by
  simp [delBatch, foldl_expireStep_expireSeries]

theorem delBatch_nextTimeout (t : Int) (s : CacheState K A) :
    (delBatch t s).nextTimeout = s.nextTimeout := by
  simp [delBatch, foldl_expireStep_nextTimeout]

theorem delBatch_limits (t : Int) (s : CacheState K A) :
    (delBatch t s).limits = s.limits := by
  simp [delBatch, foldl_expireStep_limits]

theorem delBatch_limit (t : Int) (s : CacheState K A) :
    (delBatch t s).limit = s.limit := by
  simp [delBatch, foldl_expireStep_limit]

theorem delBatch_onExpire (t : Int) (s : CacheState K A) :
    (delBatch t s).onExpire = s.onExpire := by
  simp [delBatch, foldl_expireStep_onExpire]

theorem delBatch_events_fst (t : Int) (s : CacheState K A)
    (h : s.onExpire = true) :
    (delBatch t s).events.map Prod.fst
      = s.events.map Prod.fst ++ seriesKeys s t := by
  simp [delBatch, foldl_expireStep_events_fst _ _ h, seriesKeys]

omit [DecidableEq K] in
theorem flatKeys_congr {s1 s2 : CacheState K A} :
    ∀ {L : List Int}, (∀ t ∈ L, seriesKeys s1 t = seriesKeys s2 t) →
      flatKeys s1 L = flatKeys s2 L
  | [], _ => rfl
  | t :: L, h => by
    rw [flatKeys, flatKeys, h t (List.mem_cons_self t L),
      flatKeys_congr (fun u hu => h u (List.mem_cons_of_mem t hu))]

theorem prepareTimeoutF_onExpire :
    ∀ (fuel : Nat) (now : Int) (s : CacheState K A),
      (prepareTimeoutF fuel now s).onExpire = s.onExpire
  | 0, _, _ => rfl
  | fuel + 1, now, s => by
    simp only [prepareTimeoutF]
    cases h : s.expireOrder with
    | nil => rfl
    | cons t ts =>
      by_cases h0 : t = 0
      · simp [h0]
      · by_cases hf : now < t
        · simp [h0, hf]
        · simp only [h0, hf, if_false]
          rw [prepareTimeoutF_onExpire fuel, prepareTimeoutF_onExpire fuel,
            delBatch_onExpire]

theorem prepareTimeoutF_limits :
    ∀ (fuel : Nat) (now : Int) (s : CacheState K A),
      (prepareTimeoutF fuel now s).limits = s.limits
  | 0, _, _ => rfl
  | fuel + 1, now, s => by
    simp only [prepareTimeoutF]
    cases h : s.expireOrder with
    | nil => rfl
    | cons t ts =>
      by_cases h0 : t = 0
      · simp [h0]
      · by_cases hf : now < t
        · simp [h0, hf]
        · simp only [h0, hf, if_false]
          rw [prepareTimeoutF_limits fuel, prepareTimeoutF_limits fuel,
            delBatch_limits]

theorem prepareTimeoutF_limit :
    ∀ (fuel : Nat) (now : Int) (s : CacheState K A),
      (prepareTimeoutF fuel now s).limit = s.limit
  | 0, _, _ => rfl
  | fuel + 1, now, s => by
    simp only [prepareTimeoutF]
    cases h : s.expireOrder with
    | nil => rfl
    | cons t ts =>
      by_cases h0 : t = 0
      · simp [h0]
      · by_cases hf : now < t
        · simp [h0, hf]
        · simp only [h0, hf, if_false]
          rw [prepareTimeoutF_limit fuel, prepareTimeoutF_limit fuel,
            delBatch_limit]

theorem aErase_keys_sublist {κ β : Type} [DecidableEq κ] (k : κ)
    (l : List (κ × β)) :
    List.Sublist ((aErase k l).map Prod.fst) (l.map Prod.fst) :=
  (List.filter_sublist l).map Prod.fst

theorem not_mem_aErase_keys {κ β : Type} [DecidableEq κ] (k : κ)
    (l : List (κ × β)) : k ∉ (aErase k l).map Prod.fst := by
  intro hm
  rw [List.mem_map] at hm
  obtain ⟨p, hp, hpk⟩ := hm
  rw [aErase, List.mem_filter] at hp
  have hne : p.1 ≠ k := by simpa using hp.2
  exact hne hpk

theorem aLookup_isSome_iff {κ β : Type} [DecidableEq κ] (k : κ)
    (l : List (κ × β)) :
    (aLookup k l).isSome = true ↔ k ∈ l.map Prod.fst := by
  induction l with
  | nil => simp [aLookup]
  | cons p l ih =>
    rw [aLookup_cons]
    by_cases h : p.1 = k
    · simp [h]
    · have h2 : ¬ k = p.1 := fun e => h e.symm
      simp [h, h2, ih]

theorem aSet_keys_of_present {κ β : Type} [DecidableEq κ] {k : κ}
    {l : List (κ × β)} (h : (aLookup k l).isSome) (v : β) :
    (aSet k v l).map Prod.fst = l.map Prod.fst := by
  rw [aSet, if_pos h, List.map_map]
  refine List.map_congr_left (fun p _ => ?_)
  by_cases hp : p.1 = k <;> simp [hp]

theorem aSet_keys_of_absent {κ β : Type} [DecidableEq κ] {k : κ}
    {l : List (κ × β)} (h : ¬ (aLookup k l).isSome) (v : β) :
    (aSet k v l).map Prod.fst = l.map Prod.fst ++ [k] := by
  rw [aSet, if_neg h]
  simp

theorem dataKeys_expireStep (s : CacheState K A) (k : K) :
    List.Sublist (dataKeys (expireStep s k)) (dataKeys s) :=
  aErase_keys_sublist k s.data

theorem dataKeys_foldl_expireStep :
    ∀ (L : List K) (s : CacheState K A),
      List.Sublist (dataKeys (L.foldl expireStep s)) (dataKeys s)
  | [], _ => List.Sublist.refl _
  | k :: L, s =>
    (dataKeys_foldl_expireStep L (expireStep s k)).trans
      (dataKeys_expireStep s k)

theorem dataKeys_delBatch (t : Int) (s : CacheState K A) :
    List.Sublist (dataKeys (delBatch t s)) (dataKeys s) :=
  dataKeys_foldl_expireStep _ s

theorem dataKeys_prepareTimeoutF :
    ∀ (fuel : Nat) (now : Int) (s : CacheState K A),
      List.Sublist (dataKeys (prepareTimeoutF fuel now s)) (dataKeys s)
  | 0, _, _ => List.Sublist.refl _
  | fuel + 1, now, s => by
    simp only [prepareTimeoutF]
    cases h : s.expireOrder with
    | nil => exact List.Sublist.refl _
    | cons t ts =>
      dsimp only
      by_cases h0 : t = 0
      · rw [if_pos h0]
        exact List.Sublist.refl _
      · by_cases hf : now < t
        · rw [if_neg h0, if_pos hf]
          exact List.Sublist.refl _
        · rw [if_neg h0, if_neg hf]
          exact ((dataKeys_prepareTimeoutF fuel now _).trans
            (dataKeys_prepareTimeoutF fuel now _)).trans
            (dataKeys_delBatch t _)

theorem dataKeys_prepareTimeout (now : Int) (s : CacheState K A) :
    List.Sublist (dataKeys (prepareTimeout now s)) (dataKeys s) :=
  dataKeys_prepareTimeoutF _ now s

theorem prepareTimeout_limits (now : Int) (s : CacheState K A) :
    (prepareTimeout now s).limits = s.limits :=
  prepareTimeoutF_limits _ now s

theorem prepareTimeout_limit (now : Int) (s : CacheState K A) :
    (prepareTimeout now s).limit = s.limit :=
  prepareTimeoutF_limit _ now s

theorem dataKeys_delExpireSeries (key : K) (expires now : Int)
    (s : CacheState K A) :
    List.Sublist (dataKeys (delExpireSeries key expires now s)) (dataKeys s) := by
  unfold delExpireSeries
  cases h : aLookup expires s.expireSeries with
  | none => exact List.Sublist.refl _
  | some es =>
    dsimp only
    split_ifs with h1 h2 h3
    · exact dataKeys_prepareTimeout now _
    · exact List.Sublist.refl _
    · exact List.Sublist.refl _
    · exact List.Sublist.refl _

theorem delExpireSeries_limits (key : K) (expires now : Int)
    (s : CacheState K A) :
    (delExpireSeries key expires now s).limits = s.limits := by
  unfold delExpireSeries
  cases h : aLookup expires s.expireSeries with
  | none => rfl
  | some es =>
    dsimp only
    split_ifs with h1 h2 h3
    · rw [prepareTimeout_limits]
    · rfl
    · rfl
    · rfl

theorem delExpireSeries_limit (key : K) (expires now : Int)
    (s : CacheState K A) :
    (delExpireSeries key expires now s).limit = s.limit := by
  unfold delExpireSeries
  cases h : aLookup expires s.expireSeries with
  | none => rfl
  | some es =>
    dsimp only
    split_ifs with h1 h2 h3
    · rw [prepareTimeout_limit]
    · rfl
    · rfl
    · rfl

theorem dataKeys_del (key : K) (now : Int) (s : CacheState K A) :
    List.Sublist (dataKeys (del key now s)) (dataKeys s) := by
  unfold del
  cases h : aLookup key s.data with
  | none => exact List.Sublist.refl _
  | some entry =>
    dsimp only
    split_ifs with h1
    · exact (dataKeys_delExpireSeries _ _ _ _).trans
        (aErase_keys_sublist key s.data)
    · exact aErase_keys_sublist key s.data

theorem not_mem_dataKeys_del (key : K) (now : Int) (s : CacheState K A) :
    key ∉ dataKeys (del key now s) := by
  unfold del
  cases h : aLookup key s.data with
  | none =>
    intro hm
    have := (aLookup_isSome_iff key s.data).mpr hm
    rw [h] at this
    simp at this
  | some entry =>
    dsimp only
    split_ifs with h1
    · intro hm
      exact not_mem_aErase_keys key s.data
        ((dataKeys_delExpireSeries _ _ _ _).subset hm)
    · exact not_mem_aErase_keys key s.data

theorem del_limits (key : K) (now : Int) (s : CacheState K A) :
    (del key now s).limits = s.limits := by
  unfold del
  cases h : aLookup key s.data with
  | none => rfl
  | some entry =>
    dsimp only
    split_ifs with h1
    · rw [delExpireSeries_limits]
    · rfl

theorem del_limit (key : K) (now : Int) (s : CacheState K A) :
    (del key now s).limit = s.limit := by
  unfold del
  cases h : aLookup key s.data with
  | none => rfl
  | some entry =>
    dsimp only
    split_ifs with h1
    · rw [delExpireSeries_limit]
    · rfl

theorem dataKeys_pushExpires (key : K) (time now : Int) (s : CacheState K A) :
    List.Sublist (dataKeys (pushExpires key time now s)) (dataKeys s) := by
  unfold pushExpires
  dsimp only
  by_cases hb : (binarySearch s.expireOrder time).1 = true
  · rw [if_pos hb, if_neg (by simp [hb])]
    exact List.Sublist.refl _
  · rw [if_neg hb]
    by_cases hc : (!(binarySearch s.expireOrder time).1
        && decide ((binarySearch s.expireOrder time).2 ≤ 0)) = true
    · rw [if_pos hc]
      exact dataKeys_prepareTimeout now _
    · rw [if_neg hc]
      exact List.Sublist.refl _

theorem pushExpires_limits (key : K) (time now : Int) (s : CacheState K A) :
    (pushExpires key time now s).limits = s.limits := by
  unfold pushExpires
  dsimp only
  by_cases hb : (binarySearch s.expireOrder time).1 = true
  · rw [if_pos hb, if_neg (by simp [hb])]
  · rw [if_neg hb]
    by_cases hc : (!(binarySearch s.expireOrder time).1
        && decide ((binarySearch s.expireOrder time).2 ≤ 0)) = true
    · rw [if_pos hc, prepareTimeout_limits]
    · rw [if_neg hc]

theorem pushExpires_limit (key : K) (time now : Int) (s : CacheState K A) :
    (pushExpires key time now s).limit = s.limit := by
  unfold pushExpires
  dsimp only
  by_cases hb : (binarySearch s.expireOrder time).1 = true
  · rw [if_pos hb, if_neg (by simp [hb])]
  · rw [if_neg hb]
    by_cases hc : (!(binarySearch s.expireOrder time).1
        && decide ((binarySearch s.expireOrder time).2 ≤ 0)) = true
    · rw [if_pos hc, prepareTimeout_limit]
    · rw [if_neg hc]

theorem dataKeys_replaceExpire (key : K) (en : CacheEntry A)
    (_ttl : Option Int) (_u : Option TtlUnit) (now : Int) (s : CacheState K A) :
    List.Sublist (dataKeys (replaceExpireSeriesForEntry key en _ttl _u now s))
      (dataKeys s) := by
  unfold replaceExpireSeriesForEntry
  dsimp only
  set S1 : CacheState K A := delExpireSeries key (en.expires.getD 0) now s
    with hS1
  have hsub1 : List.Sublist (dataKeys S1) (dataKeys s) := by
    rw [hS1]
    exact dataKeys_delExpireSeries _ _ _ _
  by_cases hc1 : (aLookup key S1.data).isSome = true
  · rw [if_pos hc1]
    have hkeq : dataKeys ({ S1 with
        data := aSet key ⟨en.value, calcExpires S1 _ttl _u now⟩ S1.data } :
          CacheState K A) = dataKeys S1 := aSet_keys_of_present hc1 _
    by_cases hc2 : truthy (calcExpires S1 _ttl _u now) = true
    · rw [if_pos hc2]
      refine (dataKeys_pushExpires _ _ _ _).trans ?_
      rw [hkeq]
      exact hsub1
    · rw [if_neg hc2]
      rw [hkeq]
      exact hsub1
  · rw [if_neg hc1]
    by_cases hc2 : truthy (calcExpires S1 _ttl _u now) = true
    · rw [if_pos hc2]
      exact (dataKeys_pushExpires _ _ _ _).trans hsub1
    · rw [if_neg hc2]
      exact hsub1

theorem replaceExpire_limits (key : K) (en : CacheEntry A)
    (_ttl : Option Int) (_u : Option TtlUnit) (now : Int) (s : CacheState K A) :
    (replaceExpireSeriesForEntry key en _ttl _u now s).limits = s.limits := by
  unfold replaceExpireSeriesForEntry
  dsimp only
  set S1 : CacheState K A := delExpireSeries key (en.expires.getD 0) now s
    with hS1
  have hlim1 : S1.limits = s.limits := by
    rw [hS1, delExpireSeries_limits]
  split_ifs with hc1 hc2 <;> first
    | (rw [pushExpires_limits]; exact hlim1)
    | exact hlim1

theorem replaceExpire_limit (key : K) (en : CacheEntry A)
    (_ttl : Option Int) (_u : Option TtlUnit) (now : Int) (s : CacheState K A) :
    (replaceExpireSeriesForEntry key en _ttl _u now s).limit = s.limit := by
  unfold replaceExpireSeriesForEntry
  dsimp only
  set S1 : CacheState K A := delExpireSeries key (en.expires.getD 0) now s
    with hS1
  have hlim1 : S1.limit = s.limit := by
    rw [hS1, delExpireSeries_limit]
  split_ifs with hc1 hc2 <;> first
    | (rw [pushExpires_limit]; exact hlim1)
    | exact hlim1

theorem dataKeys_get_snd (key : K) (ext : Bool) (ttl : Option Int)
    (u : Option TtlUnit) (now : Int) (s : CacheState K A) :
    List.Sublist (dataKeys (get key ext ttl u now s).2) (dataKeys s) := by
  unfold get
  cases h : aLookup key s.data with
  | none => exact List.Sublist.refl _
  | some en =>
    dsimp only
    split_ifs with h1
    · exact dataKeys_replaceExpire _ _ _ _ _ _
    · exact List.Sublist.refl _

theorem get_snd_limits (key : K) (ext : Bool) (ttl : Option Int)
    (u : Option TtlUnit) (now : Int) (s : CacheState K A) :
    (get key ext ttl u now s).2.limits = s.limits := by
  unfold get
  cases h : aLookup key s.data with
  | none => rfl
  | some en =>
    dsimp only
    split_ifs with h1
    · exact replaceExpire_limits _ _ _ _ _ _
    · rfl

theorem get_snd_limit (key : K) (ext : Bool) (ttl : Option Int)
    (u : Option TtlUnit) (now : Int) (s : CacheState K A) :
    (get key ext ttl u now s).2.limit = s.limit := by
  unfold get
  cases h : aLookup key s.data with
  | none => rfl
  | some en =>
    dsimp only
    split_ifs with h1
    · exact replaceExpire_limit _ _ _ _ _ _
    · rfl

theorem foldl_del_limits :
    ∀ (L : List K) (now : Int) (s : CacheState K A),
      (L.foldl (fun acc item => del item now acc) s).limits = s.limits
  | [], _, _ => rfl
  | j :: L, now, s => by
    rw [List.foldl_cons, foldl_del_limits L now, del_limits]

theorem foldl_del_limit :
    ∀ (L : List K) (now : Int) (s : CacheState K A),
      (L.foldl (fun acc item => del item now acc) s).limit = s.limit
  | [], _, _ => rfl
  | j :: L, now, s => by
    rw [List.foldl_cons, foldl_del_limit L now, del_limit]

theorem dataKeys_foldl_del :
    ∀ (L : List K) (now : Int) (s : CacheState K A),
      List.Sublist (dataKeys (L.foldl (fun acc item => del item now acc) s))
        (dataKeys s)
  | [], _, _ => List.Sublist.refl _
  | j :: L, now, s => by
    rw [List.foldl_cons]
    exact (dataKeys_foldl_del L now (del j now s)).trans (dataKeys_del j now s)

theorem mem_dataKeys_foldl_del :
    ∀ (L : List K) (now : Int) (s : CacheState K A) (k : K),
      k ∈ dataKeys (L.foldl (fun acc item => del item now acc) s) →
        k ∈ dataKeys s ∧ k ∉ L
  | [], _, _, k, h => ⟨h, List.not_mem_nil k⟩
  | j :: L, now, s, k, h => by
    rw [List.foldl_cons] at h
    obtain ⟨h1, h2⟩ := mem_dataKeys_foldl_del L now (del j now s) k h
    refine ⟨(dataKeys_del j now s).subset h1, fun hm => ?_⟩
    rcases List.mem_cons.mp hm with he | hL
    · exact not_mem_dataKeys_del j now s (he ▸ h1)
    · exact h2 hL

omit [DecidableEq K] in
theorem mkData_limits (X : CacheState K A) (d : List (K × CacheEntry A)) :
    ({ X with data := d } : CacheState K A).limits = X.limits := rfl

omit [DecidableEq K] in
theorem mkData_limit (X : CacheState K A) (d : List (K × CacheEntry A)) :
    ({ X with data := d } : CacheState K A).limit = X.limit := rfl

omit [DecidableEq K] in
theorem mkData_dataKeys (X : CacheState K A) (d : List (K × CacheEntry A)) :
    dataKeys ({ X with data := d } : CacheState K A) = d.map Prod.fst := rfl

theorem aSet_keys_cases {κ β : Type} [DecidableEq κ] (k : κ) (v : β)
    (l : List (κ × β)) :
    (aSet k v l).map Prod.fst = l.map Prod.fst ∨
    ((aSet k v l).map Prod.fst = l.map Prod.fst ++ [k] ∧
      k ∉ l.map Prod.fst) := by
  by_cases h : (aLookup k l).isSome = true
  · exact Or.inl (aSet_keys_of_present h v)
  · exact Or.inr ⟨aSet_keys_of_absent h v,
      fun hm => h ((aLookup_isSome_iff k l).mpr hm)⟩

theorem aSet_keys_nodup {κ β : Type} [DecidableEq κ] (k : κ) (v : β)
    (l : List (κ × β)) (h : (l.map Prod.fst).Nodup) :
    ((aSet k v l).map Prod.fst).Nodup := by
  rcases aSet_keys_cases k v l with h1 | ⟨h1, h2⟩
  · rw [h1]
    exact h
  · rw [h1]
    rw [List.nodup_append]
    exact ⟨h, List.nodup_singleton k,
      fun a ha hb => (List.mem_singleton.mp hb ▸ h2) ha⟩

theorem aSet_keys_mem {κ β : Type} [DecidableEq κ] (k : κ) (v : β)
    (l : List (κ × β)) (j : κ) (hj : j ∈ (aSet k v l).map Prod.fst) :
    j = k ∨ j ∈ l.map Prod.fst := by
  rcases aSet_keys_cases k v l with h1 | ⟨h1, _⟩
  · rw [h1] at hj
    exact Or.inr hj
  · rw [h1] at hj
    rcases List.mem_append.mp hj with hm | hm
    · exact Or.inr hm
    · exact Or.inl (List.mem_singleton.mp hm)

/-- Core of the eviction argument: if every stored key of the state fed
to pushLimit is the freshly written key or occurs in the recency list,
then after pushLimit the invariant holds and the store has at most limit
entries. -/
theorem pushLimit_bound (key : K) (now : Int) (t : CacheState K A)
    (hl : 0 < t.limit) (hnd : (dataKeys t).Nodup) (hnl : t.limits.Nodup)
    (hsub : ∀ j ∈ dataKeys t, j = key ∨ j ∈ t.limits) :
    Inv (pushLimit key now t) ∧
    (dataKeys (pushLimit key now t)).length ≤ t.limit.toNat := by
  unfold pushLimit
  rw [if_neg (by omega : ¬ t.limit = 0)]
  dsimp only
  set NO : List K := key :: t.limits.filter
    (fun item => decide (item ≠ key) && (aLookup item t.data).isSome) with hNO
  set B : CacheState K A := { t with limits := NO.take t.limit.toNat } with hB
  set R : CacheState K A :=
    (NO.drop t.limit.toNat).foldl (fun acc item => del item now acc) B with hR
  have hkeyNotFilter : key ∉ t.limits.filter
      (fun item => decide (item ≠ key) && (aLookup item t.data).isSome) := by
    intro hm
    have h2 := (List.mem_filter.mp hm).2
    simp at h2
  have hNOnd : NO.Nodup := by
    rw [hNO]
    exact List.nodup_cons.mpr ⟨hkeyNotFilter, hnl.filter _⟩
  have hRlimits : R.limits = NO.take t.limit.toNat := by
    rw [hR, foldl_del_limits, hB]
  have hRlimit : R.limit = t.limit := by
    rw [hR, foldl_del_limit, hB]
  have hRsub : List.Sublist (dataKeys R) (dataKeys t) := by
    rw [hR]
    exact dataKeys_foldl_del _ _ _
  have hRnd : (dataKeys R).Nodup := hnd.sublist hRsub
  have hmem : ∀ j ∈ dataKeys R, j ∈ NO.take t.limit.toNat := by
    intro j hj
    obtain ⟨hjB, hjdrop⟩ :=
      mem_dataKeys_foldl_del (NO.drop t.limit.toNat) now B j (by rw [hR] at hj; exact hj)
    have hjt : j ∈ dataKeys t := hjB
    have hjNO : j ∈ NO := by
      by_cases hk : j = key
      · rw [hNO, hk]
        exact List.mem_cons_self _ _
      · rcases hsub j hjt with he | hlim
        · exact absurd he hk
        · rw [hNO]
          refine List.mem_cons_of_mem _ (List.mem_filter.mpr ⟨hlim, ?_⟩)
          simp [hk]
          exact (aLookup_isSome_iff j t.data).mpr hjt
    rcases List.mem_append.mp
        (by rw [List.take_append_drop t.limit.toNat NO]; exact hjNO) with h1 | h2
    · exact h1
    · exact absurd h2 hjdrop
  have htakeNd : (NO.take t.limit.toNat).Nodup :=
    hNOnd.sublist (List.take_sublist _ _)
  have hlenTake : (NO.take t.limit.toNat).length ≤ t.limit.toNat := by
    rw [List.length_take]
    exact Nat.min_le_left _ _
  have hdataLen : (dataKeys R).length ≤ t.limit.toNat :=
    le_trans (List.Subperm.length_le (hRnd.subperm (fun j hj => hmem j hj)))
      hlenTake
  refine ⟨⟨hRnd, ?_, fun _ => ⟨?_, ?_⟩⟩, hdataLen⟩
  · rw [hRlimits]
    exact htakeNd
  · intro j hj
    rw [hRlimits]
    exact hmem j hj
  · rw [hRlimits, hRlimit]
    exact hlenTake

/-- The tail of set after the store upsert: registering the expiry and
then enforcing the limit preserves the invariant and yields the size
bound, provided every stored key of the intermediate state is the fresh
key or a previously tracked key. -/
theorem after_stages (key : K) (now : Int) (s S3 : CacheState K A)
    (hnl : s.limits.Nodup)
    (hcond : 0 < s.limit →
      (∀ k ∈ dataKeys s, k ∈ s.limits) ∧ s.limits.length ≤ s.limit.toNat)
    (hnd3 : (dataKeys S3).Nodup)
    (hmem3 : ∀ j ∈ dataKeys S3, j = key ∨ j ∈ dataKeys s)
    (hlim3 : S3.limits = s.limits) (hlimit3 : S3.limit = s.limit) :
    Inv (if 0 < s.limit then pushLimit key now S3 else S3) ∧
    (0 < s.limit →
      (dataKeys (if 0 < s.limit then pushLimit key now S3 else S3)).length
        ≤ s.limit.toNat) := by
  by_cases hlp : 0 < s.limit
  · rw [if_pos hlp]
    obtain ⟨hc1, _⟩ := hcond hlp
    have hb := pushLimit_bound key now S3 (by rw [hlimit3]; exact hlp) hnd3
      (by rw [hlim3]; exact hnl)
      (fun j hj => by
        rcases hmem3 j hj with he | hs2
        · exact Or.inl he
        · exact Or.inr (by rw [hlim3]; exact hc1 j hs2))
    refine ⟨hb.1, fun _ => ?_⟩
    have h2 := hb.2
    rw [hlimit3] at h2
    exact h2
  · rw [if_neg hlp]
    refine ⟨⟨hnd3, by rw [hlim3]; exact hnl,
      fun hp => absurd (by rw [hlimit3] at hp; exact hp) hlp⟩,
      fun hp => absurd hp hlp⟩

theorem set_stage23 (key : K) (now : Int) (E : Option Int)
    (s S2 : CacheState K A)
    (hnl : s.limits.Nodup)
    (hcond : 0 < s.limit →
      (∀ k ∈ dataKeys s, k ∈ s.limits) ∧ s.limits.length ≤ s.limit.toNat)
    (hnd2 : (dataKeys S2).Nodup)
    (hmem2 : ∀ j ∈ dataKeys S2, j = key ∨ j ∈ dataKeys s)
    (hlim2 : S2.limits = s.limits) (hlimit2 : S2.limit = s.limit) :
    Inv (if 0 < s.limit then
        pushLimit key now
          (if truthy E then pushExpires key (E.getD 0) now S2 else S2)
      else (if truthy E then pushExpires key (E.getD 0) now S2 else S2)) ∧
    (0 < s.limit →
      (dataKeys (if 0 < s.limit then
          pushLimit key now
            (if truthy E then pushExpires key (E.getD 0) now S2 else S2)
        else (if truthy E then pushExpires key (E.getD 0) now S2 else S2))).length
        ≤ s.limit.toNat) := by
  set S3 : CacheState K A :=
    if truthy E then pushExpires key (E.getD 0) now S2 else S2 with hS3
  have hsub3 : List.Sublist (dataKeys S3) (dataKeys S2) := by
    rw [hS3]
    split_ifs with h
    · exact dataKeys_pushExpires _ _ _ _
    · exact List.Sublist.refl _
  have hlim3 : S3.limits = s.limits := by
    rw [hS3]
    split_ifs with h
    · rw [pushExpires_limits]
      exact hlim2
    · exact hlim2
  have hlimit3 : S3.limit = s.limit := by
    rw [hS3]
    split_ifs with h
    · rw [pushExpires_limit]
      exact hlimit2
    · exact hlimit2
  exact after_stages key now s S3 hnl hcond (hnd2.sublist hsub3)
    (fun j hj => hmem2 j (hsub3.subset hj)) hlim3 hlimit3

/-- set preserves the invariant, and — when a positive limit is
configured — leaves at most limit entries in the store. -/
theorem set_inv (s : CacheState K A) (hInv : Inv s) (key : K) (v : A)
    (ttl : Option Int) (u : Option TtlUnit) (now : Int) :
    Inv (set key v ttl u now s) ∧
    (0 < s.limit →
      (dataKeys (set key v ttl u now s)).length ≤ s.limit.toNat) := by
  obtain ⟨hnd, hnl, hcond⟩ := hInv
  unfold set
  by_cases hl0 : s.limit = 0
  · rw [if_pos hl0]
    exact ⟨⟨hnd, hnl, hcond⟩, fun hp => absurd hp (by omega)⟩
  · rw [if_neg hl0]
    dsimp only
    refine set_stage23 key now _ s _ hnl hcond ?_ ?_ ?_ ?_
    · rw [mkData_dataKeys]
      split_ifs with hA
      · exact aSet_keys_nodup _ _ _
          (hnd.sublist (dataKeys_delExpireSeries _ _ _ _))
      · exact aSet_keys_nodup _ _ _ hnd
    · intro j hj
      rw [mkData_dataKeys] at hj
      revert hj
      split_ifs with hA <;> intro hj
      · rcases aSet_keys_mem _ _ _ j hj with he | hm
        · exact Or.inl he
        · exact Or.inr ((dataKeys_delExpireSeries _ _ _ _).subset hm)
      · rcases aSet_keys_mem _ _ _ j hj with he | hm
        · exact Or.inl he
        · exact Or.inr hm
    · rw [mkData_limits]
      split_ifs with hA
      · rw [delExpireSeries_limits]
      · rfl
    · rw [mkData_limit]
      split_ifs with hA
      · rw [delExpireSeries_limit]
      · rfl

theorem dataKeys_fire (now : Int) (s : CacheState K A) :
    List.Sublist (dataKeys (fire now s)) (dataKeys s) := by
  unfold fire
  cases s.nextTimeout with
  | none => exact List.Sublist.refl _
  | some t => exact (dataKeys_prepareTimeout now _).trans (dataKeys_delBatch t s)

theorem fire_limits (now : Int) (s : CacheState K A) :
    (fire now s).limits = s.limits := by
  unfold fire
  cases s.nextTimeout with
  | none => rfl
  | some t => rw [prepareTimeout_limits, delBatch_limits]

theorem fire_limit (now : Int) (s : CacheState K A) :
    (fire now s).limit = s.limit := by
  unfold fire
  cases s.nextTimeout with
  | none => rfl
  | some t => rw [prepareTimeout_limit, delBatch_limit]

omit [DecidableEq K] in
theorem inv_of_shrink {s t : CacheState K A} (hInv : Inv s)
    (hd : List.Sublist (dataKeys t) (dataKeys s))
    (hl : t.limits = s.limits) (hm : t.limit = s.limit) : Inv t := by
  obtain ⟨h1, h2, h3⟩ := hInv
  refine ⟨h1.sublist hd, by rw [hl]; exact h2, fun hp => ?_⟩
  rw [hm] at hp
  obtain ⟨ha, hb⟩ := h3 hp
  exact ⟨fun k hk => by rw [hl]; exact ha k (hd.subset hk),
    by rw [hl, hm]; exact hb⟩

omit [DecidableEq K] in
theorem inv_initState (l : Int) (dttl : Option Int) (du : Option TtlUnit)
    (f : Bool) : Inv (initState l dttl du f : CacheState K A) :=
  ⟨List.nodup_nil, List.nodup_nil,
    fun _ => ⟨fun k hk => absurd hk (List.not_mem_nil k), Nat.zero_le _⟩⟩

theorem inv_step {s t : CacheState K A} (hInv : Inv s) (hs : Step s t) :
    Inv t := by
  cases hs with
  | set k v ttl u now => exact (set_inv s hInv k v ttl u now).1
  | get k ext ttl u now =>
    exact inv_of_shrink hInv (dataKeys_get_snd k ext ttl u now s)
      (get_snd_limits k ext ttl u now s) (get_snd_limit k ext ttl u now s)
  | del k now =>
    exact inv_of_shrink hInv (dataKeys_del k now s) (del_limits k now s)
      (del_limit k now s)
  | reset =>
    exact ⟨List.nodup_nil, List.nodup_nil,
      fun _ => ⟨fun k hk => absurd hk (List.not_mem_nil k), Nat.zero_le _⟩⟩
  | fire now =>
    exact inv_of_shrink hInv (dataKeys_fire now s) (fire_limits now s)
      (fire_limit now s)

theorem inv_reachable {s0 s : CacheState K A} (h0 : Inv s0)
    (h : Reachable s0 s) : Inv s := by
  induction h with
  | init => exact h0
  | step _ hs ih => exact inv_step ih hs

/-- Full characterisation of the fuelled prepareTimeout on an index whose
instants are positive and strictly sorted, given enough fuel: the index
loses exactly its overdue prefix, the timer ends up targeting the head of
the remainder (none when empty), the onExpire log grows by exactly the
concatenated buckets of the overdue instants in index order, and exactly
the overdue buckets disappear from the series map. -/
theorem prepareTimeoutF_drain :
    ∀ (fuel : Nat) (now : Int) (s : CacheState K A),
      s.expireOrder.length < fuel →
      (∀ t ∈ s.expireOrder, 0 < t) →
      List.Pairwise (fun a b : Int => a < b) s.expireOrder →
      s.onExpire = true →
      (prepareTimeoutF fuel now s).expireOrder
          = s.expireOrder.dropWhile (fun x => decide (x ≤ now)) ∧
      (prepareTimeoutF fuel now s).nextTimeout
          = (s.expireOrder.dropWhile (fun x => decide (x ≤ now))).head? ∧
      (prepareTimeoutF fuel now s).events.map Prod.fst
          = s.events.map Prod.fst
            ++ flatKeys s (s.expireOrder.takeWhile (fun x => decide (x ≤ now))) ∧
      ∀ u : Int, aLookup u (prepareTimeoutF fuel now s).expireSeries
          = if u ∈ s.expireOrder.takeWhile (fun x => decide (x ≤ now)) then none
            else aLookup u s.expireSeries
  | 0, _, _, hlen, _, _, _ => (Nat.not_lt_zero _ hlen).elim
  | fuel + 1, now, s, hlen, hpos, hsort, hcb => by
    simp only [prepareTimeoutF]
    cases h : s.expireOrder with
    | nil =>
      refine ⟨?_, ?_, ?_, fun u => ?_⟩ <;>
        simp [show s.expireOrder = [] from h, flatKeys]
    | cons t ts =>
      have hpt : 0 < t := hpos t (by rw [h]; exact List.mem_cons_self t ts)
      have h0 : ¬ t = 0 := by omega
      rw [h] at hsort
      dsimp only
      by_cases hf : now < t
      · have hnle : ¬ t ≤ now := not_le.mpr hf
        rw [if_neg h0, if_pos hf]
        refine ⟨?_, ?_, ?_, fun u => ?_⟩ <;>
          simp [List.dropWhile_cons, List.takeWhile_cons, flatKeys, hnle]
      · have hle : t ≤ now := le_of_not_lt hf
        have hdwc : List.dropWhile (fun x : Int => decide (x ≤ now)) (t :: ts)
            = List.dropWhile (fun x : Int => decide (x ≤ now)) ts := by
          simp [List.dropWhile_cons, hle]
        have htwc : List.takeWhile (fun x : Int => decide (x ≤ now)) (t :: ts)
            = t :: List.takeWhile (fun x : Int => decide (x ≤ now)) ts := by
          simp [List.takeWhile_cons, hle]
        rw [if_neg h0, if_neg hf]
        set sA : CacheState K A :=
          { data := s.data, limits := s.limits, expireOrder := t :: ts,
            expireSeries := s.expireSeries, limit := s.limit, ttl := s.ttl,
            ttlUnits := s.ttlUnits, onExpire := s.onExpire,
            nextTimeout := none, events := s.events } with hsA
        set s2 : CacheState K A := delBatch t sA with hs2
        have e2 : s2.expireOrder = ts := by
          rw [hs2, delBatch_expireOrder, hsA]
          rfl
        have eser : s2.expireSeries = aErase t s.expireSeries := by
          rw [hs2, delBatch_expireSeries, hsA]
        have ecb : s2.onExpire = true := by
          rw [hs2, delBatch_onExpire, hsA]
          exact hcb
        have eev : s2.events.map Prod.fst
            = s.events.map Prod.fst ++ seriesKeys s t := by
          rw [hs2, delBatch_events_fst t sA (by rw [hsA]; exact hcb), hsA]
          rfl
        have hlen2 : s2.expireOrder.length < fuel := by
          rw [e2]
          rw [h] at hlen
          simp only [List.length_cons] at hlen
          omega
        have hpos2 : ∀ u ∈ s2.expireOrder, 0 < u := by
          rw [e2]
          intro u hu
          exact hpos u (by rw [h]; exact List.mem_cons_of_mem t hu)
        have hsort2 : List.Pairwise (fun a b : Int => a < b) s2.expireOrder := by
          rw [e2]
          exact hsort.of_cons
        obtain ⟨ih1, ih2, ih3, ih4⟩ :=
          prepareTimeoutF_drain fuel now s2 hlen2 hpos2 hsort2 ecb
        rw [e2] at ih1 ih3 ih4
        set r1 : CacheState K A := prepareTimeoutF fuel now s2 with hr1
        have hlenr : r1.expireOrder.length < fuel := by
          rw [ih1]
          exact lt_of_le_of_lt (List.dropWhile_sublist _).length_le
            (by rw [e2] at hlen2; exact hlen2)
        have hposr : ∀ u ∈ r1.expireOrder, 0 < u := by
          rw [ih1]
          intro u hu
          exact hpos2 u (by
            rw [e2]
            exact (List.dropWhile_sublist _).subset hu)
        have hsortr : List.Pairwise (fun a b : Int => a < b) r1.expireOrder := by
          rw [ih1]
          exact hsort.of_cons.sublist (List.dropWhile_sublist _)
        have hcbr : r1.onExpire = true := by
          rw [hr1, prepareTimeoutF_onExpire]
          exact ecb
        obtain ⟨j1, j2, j3, j4⟩ :=
          prepareTimeoutF_drain fuel now r1 hlenr hposr hsortr hcbr
        have htw0 : r1.expireOrder.takeWhile (fun x : Int => decide (x ≤ now))
            = [] := by
          rw [ih1]
          exact takeWhile_dropWhile _ ts
        have hdw0 : r1.expireOrder.dropWhile (fun x : Int => decide (x ≤ now))
            = r1.expireOrder := by
          conv_lhs => rw [ih1]
          rw [ih1]
          exact dropWhile_dropWhile _ ts
        have hts : ∀ u ∈ ts, t < u := (List.pairwise_cons.mp hsort).1
        have htnin : t ∉ ts := fun hm => absurd (hts t hm) (lt_irrefl t)
        refine ⟨?_, ?_, ?_, fun u => ?_⟩
        · rw [j1, hdw0, ih1, hdwc]
        · rw [j2, hdw0, ih1, hdwc]
        · rw [j3, htw0]
          show r1.events.map Prod.fst ++ flatKeys r1 [] = _
          rw [flatKeys, List.append_nil, ih3, eev, htwc]
          show _ = s.events.map Prod.fst ++
            (seriesKeys s t ++ flatKeys s (ts.takeWhile _))
          rw [List.append_assoc]
          congr 2
          refine flatKeys_congr (fun u hu => ?_)
          have hut : u ∈ ts := (List.takeWhile_sublist _).subset hu
          have hne : ¬ u = t := by
            have := hts u hut
            omega
          simp [seriesKeys, eser, aLookup_aErase, hne]
        · rw [j4 u, htw0]
          simp only [List.not_mem_nil, if_false]
          rw [ih4 u, eser, aLookup_aErase, htwc]
          by_cases hut : u = t
          · subst hut
            have hnin : u ∉ ts.takeWhile (fun x : Int => decide (x ≤ now)) :=
              fun hm => htnin ((List.takeWhile_sublist _).subset hm)
            simp [hnin]
          · by_cases hm : u ∈ ts.takeWhile (fun x : Int => decide (x ≤ now)) <;>
              simp [hm, hut, List.mem_cons]

/-! ### Claim theorems -/

/-- C2: the claim states that on an ascending array of distinct numbers,
a missed binarySearch returns the correct insertion position (the number
of elements strictly less than the target). The code violates this, and
its own test suite (src/bin-serach.spec.ts) documents the correct answer:
binarySearch([4,6,8], 7) must be (false, 2) since two elements are
smaller than 7, but the implementation returns (false, 1). -/
theorem c2_binarySearch_wrong_insertion_index :
    binarySearch [4, 6, 8] 7 = (false, 1) ∧
    (([4, 6, 8] : List Int).filter (fun x => decide (x < 7))).length = 2 := by
  decide

/-- C1: the claim states that after set the key is registered in at most
one expiry-series bucket whose timestamp equals the stored expiresAt, and
that an old registration is unregistered even when the new entry has no
expiry. In c1State the second set computed a null expiry, so the code
skipped the unregistration (`if (expires && entry?.expires)`): key 0 is
still registered in bucket 100 while its stored entry has expires null,
and the timer is still armed for instant 100. -/
theorem c1_set_keeps_stale_registration :
    aLookup 100 c1State.expireSeries = some [0] ∧
    (aLookup 0 c1State.data).map (fun en => en.expires) = some none ∧
    c1State.nextTimeout = some 100 := by
  decide

/-- C3: the claim states that every operation keeps expireOrder a
strictly increasing sequence. After the four sets of c3State the faulty
binary search inserts instant 5 at index 1 of [1, 2, 10], leaving the
index [1, 5, 2, 10], which is not strictly increasing. -/
theorem c3_expireOrder_not_sorted :
    c3State.expireOrder = [1, 5, 2, 10] ∧
    ¬ List.Pairwise (fun a b : Int => a < b) c3State.expireOrder := by
  decide

/-- C6: the claim states that onExpire is invoked exactly once per key
per expiry even under set churn before the deadline. In c6State key 0 is
registered twice in bucket 100 (the middle ttl-0 set skipped the
unregistration, and the third set appended the key again), so the single
firing at t = 100 invokes onExpire twice for key 0 — the second time with
an undefined value. -/
theorem c6_onExpire_fires_twice :
    c6State.events = [(0, some 3), (0, none)] := by
  decide

/-- C8: the claim states that set(k, v); del(k) leaves get(k) absent with
no residual expiry registration for k, so no onExpire for k ever fires.
In c8State the overwrite with a null expiry skipped the unregistration
and del saw a null stored expiry, so after del the key is absent from
data (get returns absent) yet still registered in bucket 100 with the
timer armed, and the firing at t = 100 invokes onExpire for key 0 with an
undefined value. -/
theorem c8_del_leaves_residual_registration :
    (get 0 false none none 0 c8State).1 = none ∧
    aLookup 100 c8State.expireSeries = some [0] ∧
    c8State.nextTimeout = some 100 ∧
    (fire 100 c8State).events = [(0, none)] := by
  decide

/-- C10: get with extendTtl false is a pure read: it returns exactly the
stored value (or absent) and the state unchanged. The right-hand side
does not mention now or the entry expiry, so the eviction order is not
touched and an entry whose deadline has passed but whose timer has not
fired is still returned. -/
theorem c10_get_pure_read (s : CacheState K A) (k : K) (ttl : Option Int)
    (u : Option TtlUnit) (now : Int) :
    get k false ttl u now s = ((aLookup k s.data).map (fun en => en.value), s) := by
  unfold get
  cases aLookup k s.data <;> simp

/-- C9: with limit 0 every set call returns before any mutation, so it is
the identity on the cache state; consequently a get after a set on a
fresh limit-0 cache returns absent regardless of any configured TTL. -/
theorem c9_limit_zero_set_noop (s : CacheState K A) (h : s.limit = 0)
    (k : K) (v : A) (ttl : Option Int) (u : Option TtlUnit) (now : Int) :
    set k v ttl u now s = s ∧
    ∀ (dttl : Option Int) (du : Option TtlUnit) (f : Bool) (now2 : Int),
      (get k false none none now2
        (set k v ttl u now (initState (K := K) (A := A) 0 dttl du f))).1 = none := by
  constructor
  · unfold set
    simp [h]
  · intro dttl du f now2
    have hz : (initState (K := K) (A := A) 0 dttl du f).limit = 0 := rfl
    have hs : set k v ttl u now (initState (K := K) (A := A) 0 dttl du f)
        = initState (K := K) (A := A) 0 dttl du f := by
      unfold set
      simp [hz]
    rw [hs, c10_get_pure_read]
    rfl

/-- C9 witness: instantiation at a concrete limit-0 cache. -/
theorem c9_limit_zero_set_noop_witness :
    set 0 5 none none 0 (initState (K := Nat) (A := Nat) 0 none none false)
        = initState (K := Nat) (A := Nat) 0 none none false ∧
    ∀ (dttl : Option Int) (du : Option TtlUnit) (f : Bool) (now2 : Int),
      (get 0 false none none now2
        (set 0 5 none none 0 (initState (K := Nat) (A := Nat) 0 dttl du f))).1 = none :=
  c9_limit_zero_set_noop _ rfl 0 5 none none 0

/-- C5 counterexample: the claim states that the computed expiry is None
whenever the ttl does not yield a positive duration, including negative
ttl. The code only tests JS truthiness (`ttl ? ... : null`), so an
entry-level ttl of -5 at t = 100 (units ms) yields the past instant 95,
not None. -/
theorem c5_negative_ttl_not_none :
    calcExpires (initState (K := Nat) (A := Nat) 1000 none none false)
        (some (-5)) none 100 = some 95 ∧
    calcExpires (initState (K := Nat) (A := Nat) 1000 none none false)
        (some (-5)) none 100 ≠ none := by
  decide

omit [DecidableEq K] in
/-- C5 (amended): the computed expiry is None exactly when the selected
ttl (the entry-level argument when supplied, else the cache default) is
absent or zero — a negative ttl yields a non-None past instant — and an
entry-level ttl argument always takes precedence over the cache-level
default. -/
theorem c5_calcExpires_none_iff (s : CacheState K A) (_ttl : Option Int)
    (_u : Option TtlUnit) (now : Int) :
    (calcExpires s _ttl _u now = none ↔
      selectedTtl s _ttl = none ∨ selectedTtl s _ttl = some 0) ∧
    (∀ t : Int, _ttl = some t → selectedTtl s _ttl = some t) := by
  constructor
  · unfold calcExpires
    cases h : selectedTtl s _ttl with
    | none => simp
    | some t =>
      by_cases ht : t = 0 <;> simp [ht]
  · intro t h
    unfold selectedTtl
    rw [h]

/-- C7: whenever the scheduler re-arms on an expiry index of positive,
strictly sorted instants, prepareTimeout synchronously retires every
overdue batch (instants ≤ now) in index order, skipping none: the
onExpire log grows by exactly the concatenated buckets of the overdue
prefix of the index, exactly those buckets disappear from the series map,
and afterwards the timer targets the head of the remaining index — one
timer for the next future instant, or idle when the index is empty. -/
theorem c7_rearm_drains_overdue (s : CacheState K A) (now : Int)
    (hpos : ∀ t ∈ s.expireOrder, 0 < t)
    (hsort : List.Pairwise (fun a b : Int => a < b) s.expireOrder)
    (hcb : s.onExpire = true) :
    (prepareTimeout now s).expireOrder
        = s.expireOrder.dropWhile (fun x => decide (x ≤ now)) ∧
    (prepareTimeout now s).nextTimeout
        = ((prepareTimeout now s).expireOrder).head? ∧
    (prepareTimeout now s).events.map Prod.fst
        = s.events.map Prod.fst
          ++ flatKeys s (s.expireOrder.takeWhile (fun x => decide (x ≤ now))) ∧
    ∀ u : Int, aLookup u (prepareTimeout now s).expireSeries
        = if u ∈ s.expireOrder.takeWhile (fun x => decide (x ≤ now)) then none
          else aLookup u s.expireSeries := by
  unfold prepareTimeout
  obtain ⟨a, b, c, d⟩ := prepareTimeoutF_drain (s.expireOrder.length + 1) now s
    (Nat.lt_succ_self _) hpos hsort hcb
  refine ⟨a, ?_, c, d⟩
  rw [b, a]

/-- C7 witness: at now = 7 the state c7State (instants 5 and 10) drains
the batch at 5 and re-arms for 10. -/
theorem c7_rearm_drains_overdue_witness :
    (prepareTimeout 7 c7State).expireOrder
        = c7State.expireOrder.dropWhile (fun x => decide (x ≤ 7)) ∧
    (prepareTimeout 7 c7State).nextTimeout
        = ((prepareTimeout 7 c7State).expireOrder).head? ∧
    (prepareTimeout 7 c7State).events.map Prod.fst
        = c7State.events.map Prod.fst
          ++ flatKeys c7State (c7State.expireOrder.takeWhile (fun x => decide (x ≤ 7))) ∧
    aLookup 5 (prepareTimeout 7 c7State).expireSeries
        = if (5 : Int) ∈ c7State.expireOrder.takeWhile (fun x => decide (x ≤ 7))
          then none else aLookup 5 c7State.expireSeries :=
  ⟨(c7_rearm_drains_overdue c7State 7 (by decide) (by decide) rfl).1,
   (c7_rearm_drains_overdue c7State 7 (by decide) (by decide) rfl).2.1,
   (c7_rearm_drains_overdue c7State 7 (by decide) (by decide) rfl).2.2.1,
   (c7_rearm_drains_overdue c7State 7 (by decide) (by decide) rfl).2.2.2 5⟩

/-- C4: from any state reachable by public operations and timer firings
from a freshly constructed cache, when the configured limit is positive,
every set call leaves at most limit entries in the store (pushLimit dels
the keys that fall off the capped recency list until the bound holds). -/
theorem c4_set_respects_limit (l : Int) (dttl : Option Int)
    (du : Option TtlUnit) (f : Bool) (s : CacheState K A)
    (hr : Reachable (initState l dttl du f) s) (hl : 0 < s.limit)
    (k : K) (v : A) (ttl : Option Int) (u : Option TtlUnit) (now : Int) :
    (set k v ttl u now s).data.length ≤ s.limit.toNat := by
  have hInv := inv_reachable (inv_initState l dttl du f) hr
  have hb := (set_inv s hInv k v ttl u now).2 hl
  rw [dataKeys, List.length_map] at hb
  exact hb

/-- C4 witness: one set on a fresh cache with limit 2 leaves at most two
entries. -/
theorem c4_set_respects_limit_witness :
    (set 0 5 none none 0
        (initState (K := Nat) (A := Nat) 2 none none false)).data.length
      ≤ (initState (K := Nat) (A := Nat) 2 none none false).limit.toNat :=
  c4_set_respects_limit 2 none none false _ Reachable.init (by decide)
    0 5 none none 0

/-- C5 witness: at a cache whose default ttl is 7, an entry-level ttl of
5 is selected and yields a non-None expiry. -/
theorem c5_calcExpires_none_iff_witness :
    (calcExpires c5State (some 5) none 0 = none ↔
      selectedTtl c5State (some 5) = none ∨ selectedTtl c5State (some 5) = some 0) ∧
    selectedTtl c5State (some 5) = some 5 :=
  ⟨(c5_calcExpires_none_iff c5State (some 5) none 0).1,
   (c5_calcExpires_none_iff c5State (some 5) none 0).2 5 rfl⟩

end ProstoCache
